import Mathlib

/-!
Verification of the mars-rover grid/command simulation engine.

The definitions below are a shallow embedding of the source functions
(`generateEmptyMap`, `landscapeSetup`, `haveObstacle`, `turnLeft`,
`turnRight`, `moveForward`, `moveBackwards`, `repositionRover`,
`commandRovers`, `hasInvalidCommands`, `chainList`).  The repository holds
two near-duplicate files; we follow the axis convention of the second file
(`squares[y][x]`, heading N decrements `y`), which is the convention the
spec's design notes standardize on.  JavaScript mutation is modelled by
explicit state passing: the mutable map/rover heap becomes a `World` value
threaded through each operation, mutable rover objects become entries of
`World.rovers` addressed by index (the JS object references that orders and
cells hold become those indices), and `console.log` warnings become
returned `Warning` values.  The randomized `Math.random` samples of
`landscapeSetup` become an explicit list of sampled coordinates.
-/

namespace MarsRover

/-- A JS `{x, y}` coordinate pair.  JS numbers holding small integers are
modelled as `Int` (moves may compute the value -1 before any bounds check). -/
structure Coord where
  x : Int
  y : Int
deriving DecidableEq, Inhabited

/-- Contents of one map square: `0` (empty), `"#"` (a rock) or a reference
to a rover object, modelled by the rover's index in the world's rover list. -/
inductive Cell where
  | empty : Cell
  | rock : Cell
  | roverRef : Nat → Cell
deriving DecidableEq, Inhabited

/-- A rover heading, one of the four strings "N", "E", "S", "W". -/
inductive Heading where
  | N : Heading
  | E : Heading
  | S : Heading
  | W : Heading
deriving DecidableEq, Inhabited

/-- The `map.boundaries` object produced by `generateEmptyMap`. -/
structure Boundaries where
  left : Int
  right : Int
  top : Int
  down : Int
deriving DecidableEq, Inhabited

/-- The Mars map: boundaries plus the `squares` matrix.  The matrix is
modelled as a total function `squares y x`; the source indexes
`squares[y][x]` and only ever reads cells after an in-bounds check (or at
coordinates sampled in range), so cells outside the populated region are
never consulted and are kept `empty`. -/
structure MarsMap where
  boundaries : Boundaries
  squares : Int → Int → Cell

/-- A rover object: `name`, `direction`, `currentCoords` and `travelLog`. -/
structure Rover where
  name : String
  direction : Heading
  currentCoords : Coord
  travelLog : List Coord
deriving DecidableEq, Inhabited

/-- The mutable heap of the simulation: the map plus the rover objects
(addressed by index, standing in for JS object references). -/
structure World where
  map : MarsMap
  rovers : List Rover

/-- A warning event as printed by `issueWarning(rover, message)`. -/
structure Warning where
  roverName : String
  message : String
deriving DecidableEq, Inhabited

/-- Dereference a rover index, as JS dereferences a rover object. -/
def getRover (w : World) (i : Nat) : Rover := w.rovers.getD i default

/-- Source `generateEmptyMap(xSize, ySize)`: for positive sizes, a map with
`boundaries {left: -1, right: xSize, top: -1, down: ySize}` and all squares
`0` (empty); otherwise the JS function returns `false`, modelled as `none`. -/
def generateEmptyMap (xSize ySize : Int) : Option MarsMap :=
  if 0 < xSize ∧ 0 < ySize then
    some { boundaries := { left := -1, right := xSize, top := -1, down := ySize },
           squares := fun _ _ => Cell.empty }
  else
    none

/-- In-place update `map.squares[c.y][c.x] = v`. -/
def setSquare (m : MarsMap) (c : Coord) (v : Cell) : MarsMap :=
  { m with squares := fun y x => if y = c.y ∧ x = c.x then v else m.squares y x }

/-- Source `haveObstacle(map, destination)`: the out-of-bounds test on the
exclusive boundaries, then the occupancy test; returns the warning string,
or `false` (here `none`) for a free in-bounds destination. -/
def haveObstacle (m : MarsMap) (destination : Coord) : Option String :=
  if destination.y ≤ m.boundaries.top ∨ destination.y ≥ m.boundaries.down ∨
      destination.x ≤ m.boundaries.left ∨ destination.x ≥ m.boundaries.right then
    some "destination out of bounds"
  else if m.squares destination.y destination.x ≠ Cell.empty then
    some "collision warning"
  else
    none

/-- Source `turnLeft(rover)`: the switch on `rover.direction`, as a pure
function on headings (the JS mutation of `rover.direction` is applied by
`turnRover`). -/
def turnLeft : Heading → Heading
  | Heading.N => Heading.W
  | Heading.E => Heading.N
  | Heading.S => Heading.E
  | Heading.W => Heading.S

/-- Source `turnRight(rover)`: the switch on `rover.direction`. -/
def turnRight : Heading → Heading
  | Heading.N => Heading.E
  | Heading.E => Heading.S
  | Heading.S => Heading.W
  | Heading.W => Heading.N

/-- Apply a heading change to rover `i` in place. -/
def turnRover (f : Heading → Heading) (w : World) (i : Nat) : World :=
  { w with
    rovers := w.rovers.set i { getRover w i with direction := f (getRover w i).direction } }

/-- The destination a forward move computes in `moveForward`: the switch on
`rover.direction` applied to a copy of `rover.currentCoords`. -/
def forwardDest (c : Coord) : Heading → Coord
  | Heading.N => { c with y := c.y - 1 }
  | Heading.E => { c with x := c.x + 1 }
  | Heading.S => { c with y := c.y + 1 }
  | Heading.W => { c with x := c.x - 1 }

/-- The destination a backward move computes in `moveBackwards`. -/
def backwardDest (c : Coord) : Heading → Coord
  | Heading.N => { c with y := c.y + 1 }
  | Heading.E => { c with x := c.x - 1 }
  | Heading.S => { c with y := c.y - 1 }
  | Heading.W => { c with x := c.x + 1 }

/-- Source `repositionRover(map, rover, destination)`: if `haveObstacle`
reports nothing, clear the rover's old square, set its coordinates to the
destination, occupy the new square and push (a value copy of) the new
coordinates onto `travelLog`; otherwise issue the warning and change
nothing. -/
def repositionRover (w : World) (i : Nat) (destination : Coord) : World × List Warning :=
  match haveObstacle w.map destination with
  | none =>
      let rover := getRover w i
      let cleared := setSquare w.map rover.currentCoords Cell.empty
      let placed := setSquare cleared destination (Cell.roverRef i)
      let rover' := { rover with
        currentCoords := destination
        travelLog := rover.travelLog ++ [destination] }
      ({ map := placed, rovers := w.rovers.set i rover' }, [])
  | some msg => (w, [{ roverName := (getRover w i).name, message := msg }])

/-- Source `moveForward(rover, map)`. -/
def moveForward (w : World) (i : Nat) : World × List Warning :=
  repositionRover w i (forwardDest (getRover w i).currentCoords (getRover w i).direction)

/-- Source `moveBackwards(rover, map)`. -/
def moveBackwards (w : World) (i : Nat) : World × List Warning :=
  repositionRover w i (backwardDest (getRover w i).currentCoords (getRover w i).direction)

/-- One `{rover, commands}` entry of the command list; the rover object
reference is the rover's index, the JS command string is its character
list. -/
structure CommandReq where
  roverIdx : Nat
  commands : List Char
deriving DecidableEq, Inhabited

/-- One `{rover, command}` order produced by `chainList`. -/
structure Order where
  roverIdx : Nat
  command : Char
deriving DecidableEq, Inhabited

/-- A character the regex `[^lrfb]` does not match. -/
def validChar (c : Char) : Bool := c == 'l' || c == 'r' || c == 'f' || c == 'b'

/-- Whether `/[^lrfb]+/.test(pair.commands)` holds for a request. -/
def invalidReq (q : CommandReq) : Bool := q.commands.any (fun c => !(validChar c))

/-- Source `hasInvalidCommands(commandList)`: the forEach leaves in
`errorFlag` a closure over the last offending pair, or `false`; modelled as
that last offending request, or `none`. -/
def hasInvalidCommands (l : List CommandReq) : Option CommandReq :=
  l.foldl (fun acc q => if invalidReq q then some q else acc) none

/-- Insert a request into a list already sorted by descending command
length, after strictly longer entries and before all entries of smaller or
equal length that followed it. -/
def insertByLen (q : CommandReq) : List CommandReq → List CommandReq
  | [] => [q]
  | p :: ps =>
      if p.commands.length ≤ q.commands.length then q :: p :: ps
      else p :: insertByLen q ps

/-- Source `commandList.sort((a, b) => b.commands.length - a.commands.length)`:
the (stable, per ES2019 `Array.prototype.sort`) in-place sort by descending
command-string length, as a stable insertion sort. -/
def sortByLenDesc : List CommandReq → List CommandReq
  | [] => []
  | q :: qs => insertByLen q (sortByLenDesc qs)

/-- The nested loops of `chainList` over an already sorted list: for `i`
from `0` to `commandList[0].commands.length - 1`, for each row in order,
push the row's character at `i` when `charAt(i)` is non-empty. -/
def buildChain (sorted : List CommandReq) : List Order :=
  (List.range (sorted.headD default).commands.length).flatMap fun i =>
    sorted.filterMap fun q =>
      (q.commands[i]?).map fun ch => { roverIdx := q.roverIdx, command := ch }

/-- Source `chainList(commandList)`: sort (in place) by descending command
count, then multiplex into the order chain. -/
def chainList (commandList : List CommandReq) : List Order :=
  buildChain (sortByLenDesc commandList)

/-- Dispatch of one order in the `commandRovers` switch. -/
def execOrder (w : World) (o : Order) : World × List Warning :=
  if o.command = 'l' then (turnRover turnLeft w o.roverIdx, [])
  else if o.command = 'r' then (turnRover turnRight w o.roverIdx, [])
  else if o.command = 'f' then moveForward w o.roverIdx
  else if o.command = 'b' then moveBackwards w o.roverIdx
  else (w, [])

/-- The order-consuming loop of `commandRovers`, collecting the warnings
printed along the way. -/
def execOrders (w : World) : List Order → World × List Warning
  | [] => (w, [])
  | o :: os =>
      let step := execOrder w o
      let rest := execOrders step.1 os
      (rest.1, step.2 ++ rest.2)

/-- The warning message issued for a request with invalid characters. -/
def wrongCommandsMsg : String := "has wrong commands. Only l,r,f,b are valid commands"

/-- Whether a coordinate can be produced by the sampling
`{x: Math.floor(Math.random() * boundaries.right),
  y: Math.floor(Math.random() * boundaries.down)}` of `landscapeSetup`. -/
def sampleOK (m : MarsMap) (c : Coord) : Prop :=
  0 ≤ c.x ∧ c.x < m.boundaries.right ∧ 0 ≤ c.y ∧ c.y < m.boundaries.down

instance (m : MarsMap) (c : Coord) : Decidable (sampleOK m c) := by
  unfold sampleOK
  infer_instance

/-- The `while (deploys > 0)` loop of `landscapeSetup`, with the stream of
random coordinate samples made explicit.  `idxs` is the mutable `rovers`
array of rover references (`pop` takes its last element).  Obstacles are
placed while `numObst > 0`, then rovers; a placement consumes one deploy,
an occupied sample is retried.  `none` models a run whose finite sample
list is exhausted before the loop ends (the JS loop would keep drawing). -/
def landscapeLoop :
    MarsMap → List Rover → Nat → List Nat → Nat → List Coord →
      Option (MarsMap × List Rover)
  | m, rs, _, _, 0, _ => some (m, rs)
  | _, _, _, _, _ + 1, [] => none
  | m, rs, numObst, idxs, d + 1, c :: rest =>
      if m.squares c.y c.x = Cell.empty then
        if 0 < numObst then
          landscapeLoop (setSquare m c Cell.rock) rs (numObst - 1) idxs d rest
        else
          match idxs.getLast? with
          | none => none
          | some i =>
              let r := rs.getD i default
              let r' := { r with currentCoords := c, travelLog := [c] }
              landscapeLoop (setSquare m c (Cell.roverRef i)) (rs.set i r')
                numObst idxs.dropLast d rest
      else
        landscapeLoop m rs numObst idxs (d + 1) rest

/-- Result of `landscapeSetup`: the JS `false` (capacity exceeded, nothing
placed), a completed placement, or a run that exhausted its sample list. -/
inductive SetupResult where
  | insufficientSpace : SetupResult
  | starved : SetupResult
  | placed : MarsMap → List Rover → SetupResult

/-- Source `landscapeSetup(map, numObst, rovers)`: check
`deploys <= boundaries.down * boundaries.right` and run the placement loop.
`rs` is the rover store and `idxs` the indices the `rovers` argument holds. -/
def landscapeSetup (m : MarsMap) (numObst : Nat) (rs : List Rover) (idxs : List Nat)
    (samples : List Coord) : SetupResult :=
  if ((numObst + idxs.length : Nat) : Int) ≤ m.boundaries.down * m.boundaries.right then
    match landscapeLoop m rs numObst idxs (numObst + idxs.length) samples with
    | some (m', rs') => SetupResult.placed m' rs'
    | none => SetupResult.starved
  else
    SetupResult.insufficientSpace

/-- Result of `initializeMap`: the JS `false` cases keep their two error
messages apart, plus the starved model artifact. -/
inductive InitResult where
  | invalidSize : InitResult
  | insufficientSpace : InitResult
  | starved : InitResult
  | ready : World → InitResult

/-- Source `initializeMap(mapX, mapY, numObstacles, ...rovers)`: generate
the empty map, then scatter the obstacles and all rovers of the store. -/
def initializeMap (xSize ySize : Int) (numObst : Nat) (rs : List Rover)
    (samples : List Coord) : InitResult :=
  match generateEmptyMap xSize ySize with
  | none => InitResult.invalidSize
  | some m =>
      match landscapeSetup m numObst rs (List.range rs.length) samples with
      | SetupResult.insufficientSpace => InitResult.insufficientSpace
      | SetupResult.starved => InitResult.starved
      | SetupResult.placed m' rs' => InitResult.ready { map := m', rovers := rs' }

/-- The grid positions of a map, as (row, column) coordinate pairs. -/
def gridCells (m : MarsMap) : Finset (Int × Int) :=
  Finset.Icc 0 (m.boundaries.down - 1) ×ˢ Finset.Icc 0 (m.boundaries.right - 1)

/-- Number of non-empty squares inside the grid. -/
def occupiedCount (m : MarsMap) : Nat :=
  ((gridCells m).filter fun p => m.squares p.1 p.2 ≠ Cell.empty).card

/-- Number of empty squares inside the grid. -/
def emptyCount (m : MarsMap) : Nat :=
  ((gridCells m).filter fun p => m.squares p.1 p.2 = Cell.empty).card

/-- Source `commandRovers(map, commandList)`.  Returns the final world, the
final contents of the caller's `commandList` array (which `chainList` sorts
in place on the valid path), and the warnings issued.  On the invalid path
the stored error closure fires exactly one warning for the last offending
pair and nothing else runs. -/
def commandRovers (w : World) (commandList : List CommandReq) :
    World × List CommandReq × List Warning :=
  match hasInvalidCommands commandList with
  | none =>
      let sorted := sortByLenDesc commandList
      let run := execOrders w (buildChain sorted)
      (run.1, sorted, run.2)
  | some q =>
      (w, commandList,
        [{ roverName := (getRover w q.roverIdx).name, message := wrongCommandsMsg }])

/-! Concrete instances used by the spec's worked examples. -/

/-- The empty 10×10 map, `generateEmptyMap 10 10`. -/
def m10 : MarsMap :=
  { boundaries := { left := -1, right := 10, top := -1, down := 10 },
    squares := fun _ _ => Cell.empty }

/-- Rover "Alpha" standing at (5,5) heading N with its placement history. -/
def alphaRover : Rover :=
  { name := "Alpha", direction := Heading.N, currentCoords := { x := 5, y := 5 },
    travelLog := [{ x := 5, y := 5 }] }

/-- A 10×10 world holding only Alpha at (5,5), nothing ahead of it. -/
def alphaWorld : World :=
  { map := setSquare m10 { x := 5, y := 5 } (Cell.roverRef 0), rovers := [alphaRover] }

/-- The command batch "ff" for Alpha. -/
def ffBatch : List CommandReq := [{ roverIdx := 0, commands := ['f', 'f'] }]

/-- A batch whose single command string "lrx" holds an invalid character. -/
def lrxBatch : List CommandReq := [{ roverIdx := 0, commands := ['l', 'r', 'x'] }]

/-- Two requests with command strings of length 3 and 5 (shorter submitted
first). -/
def interleaveBatch : List CommandReq :=
  [{ roverIdx := 0, commands := ['l', 'r', 'f'] },
   { roverIdx := 1, commands := ['f', 'b', 'f', 'l', 'r'] }]

/-- The 8 orders the interleaving of `interleaveBatch` must produce: the
two rovers alternate for three columns, then the length-5 rover's last two
orders follow alone. -/
def interleaveExpected : List Order :=
  [{ roverIdx := 1, command := 'f' }, { roverIdx := 0, command := 'l' },
   { roverIdx := 1, command := 'b' }, { roverIdx := 0, command := 'r' },
   { roverIdx := 1, command := 'f' }, { roverIdx := 0, command := 'f' },
   { roverIdx := 1, command := 'l' }, { roverIdx := 1, command := 'r' }]

/-- A batch submitted shorter-first, so that sorting visibly reorders it. -/
def swapBatch : List CommandReq :=
  [{ roverIdx := 0, commands := ['f'] }, { roverIdx := 1, commands := ['f', 'f'] }]

/-- The empty 2×2 map, `generateEmptyMap 2 2`. -/
def map2x2 : MarsMap :=
  { boundaries := { left := -1, right := 2, top := -1, down := 2 },
    squares := fun _ _ => Cell.empty }

/-- A degenerate random stream that keeps sampling the origin. -/
def constSamples (n : Nat) : List Coord := List.replicate n { x := 0, y := 0 }

/-- The placement loop of a 2-obstacle setup on the empty 2×2 map (which
satisfies the capacity precondition `2 ≤ 4`) never finishes when the
random stream keeps yielding the origin: every finite prefix starves. -/
def starvingDiverges : Prop :=
  ∀ n, landscapeSetup map2x2 2 [] [] (constSamples n) = SetupResult.starved

/-- One full sweep over every cell of a w×h grid, row by row. -/
def allCells (w h : Nat) : List Coord :=
  (List.range h).flatMap fun y =>
    (List.range w).map fun x => { x := Int.ofNat x, y := Int.ofNat y }

/-- Boundary shape every map built by `generateEmptyMap` has on its low
side: the exclusive minimum is -1 on both axes. -/
def StdBounds (m : MarsMap) : Prop := m.boundaries.left = -1 ∧ m.boundaries.top = -1

/-- All squares outside the populated w×h region are (and stay) empty. -/
def OutsideEmpty (m : MarsMap) : Prop :=
  ∀ y x : Int,
    ¬(0 ≤ x ∧ x < m.boundaries.right ∧ 0 ≤ y ∧ y < m.boundaries.down) →
      m.squares y x = Cell.empty

/-- The occupancy invariant: every rover of the store stands in bounds on a
square that references it, and every rover reference on the grid points
back to a rover recorded exactly there.  Together these give at most one
occupant per cell and at most one cell per rover. -/
def RoverCellsInv (w : World) : Prop :=
  StdBounds w.map ∧
  (∀ i r, w.rovers[i]? = some r →
    sampleOK w.map r.currentCoords ∧
      w.map.squares r.currentCoords.y r.currentCoords.x = Cell.roverRef i) ∧
  (∀ y x i, w.map.squares y x = Cell.roverRef i →
    ∃ r, w.rovers[i]? = some r ∧ r.currentCoords = { x := x, y := y })

/-- Invariant carried through the placement loop: `idxs` lists the rovers
still to be placed (no duplicates, all in the store); every already placed
rover is linked to its square and carries the one-entry history of its
sampled cell; every rover reference on the grid belongs to a placed rover
recorded there. -/
def LoopInv (m : MarsMap) (rs : List Rover) (idxs : List Nat) : Prop :=
  StdBounds m ∧ idxs.Nodup ∧ (∀ i ∈ idxs, i < rs.length) ∧
  (∀ i r, rs[i]? = some r → i ∉ idxs →
    sampleOK m r.currentCoords ∧
    m.squares r.currentCoords.y r.currentCoords.x = Cell.roverRef i ∧
    r.travelLog = [r.currentCoords]) ∧
  (∀ y x i, m.squares y x = Cell.roverRef i →
    i ∉ idxs ∧ ∃ r, rs[i]? = some r ∧ r.currentCoords = { x := x, y := y })

/-- The descending-length order relation the sort establishes. -/
def LenDesc (a b : CommandReq) : Prop := b.commands.length ≤ a.commands.length

/-- The commands an order chain holds for rover `r`, in chain order. -/
def roverCmds (orders : List Order) (r : Nat) : List Char :=
  orders.filterMap fun o => if o.roverIdx == r then some o.command else none

/-! Helper lemmas about the stable sort of `chainList`. -/

theorem insertByLen_perm (q : CommandReq) (l : List CommandReq) :
    List.Perm (insertByLen q l) (q :: l) := by
  induction l with
  | nil => exact List.Perm.refl _
  | cons p ps ih =>
      unfold insertByLen
      split
      · exact List.Perm.refl _
      · exact (List.Perm.cons p ih).trans (List.Perm.swap q p ps)

theorem sortByLenDesc_perm (l : List CommandReq) : List.Perm (sortByLenDesc l) l := by
  induction l with
  | nil => exact List.Perm.refl _
  | cons q qs ih => exact (insertByLen_perm q (sortByLenDesc qs)).trans (List.Perm.cons q ih)

theorem insertByLen_pairwise {q : CommandReq} {l : List CommandReq}
    (h : l.Pairwise LenDesc) : (insertByLen q l).Pairwise LenDesc := by
  induction l with
  | nil => simp [insertByLen, List.pairwise_cons]
  | cons p ps ih =>
      rw [List.pairwise_cons] at h
      unfold insertByLen
      split
      · rename_i hle
        rw [List.pairwise_cons]
        refine ⟨?_, List.pairwise_cons.mpr h⟩
        intro b hb
        rcases List.mem_cons.mp hb with hb | hb
        · subst hb; exact hle
        · exact le_trans (h.1 b hb) hle
      · rename_i hgt
        rw [List.pairwise_cons]
        refine ⟨?_, ih h.2⟩
        intro b hb
        have hb' := (insertByLen_perm q ps).mem_iff.mp hb
        rcases List.mem_cons.mp hb' with hb' | hb'
        · subst hb'; exact le_of_not_le hgt
        · exact h.1 b hb'

theorem sortByLenDesc_pairwise (l : List CommandReq) :
    (sortByLenDesc l).Pairwise LenDesc := by
  induction l with
  | nil => exact List.Pairwise.nil
  | cons q qs ih => exact insertByLen_pairwise ih

/-- Every entry of the sorted list is at most as long as its head: the JS
loop bound `commandList[0].commands.length` is the maximum length. -/
theorem sortByLenDesc_head_max {l : List CommandReq} {q : CommandReq}
    (hq : q ∈ sortByLenDesc l) :
    q.commands.length ≤ ((sortByLenDesc l).headD default).commands.length := by
  have hp := sortByLenDesc_pairwise l
  cases hs : sortByLenDesc l with
  | nil => simp [hs] at hq
  | cons p ps =>
      rw [hs] at hq hp
      rw [List.pairwise_cons] at hp
      rcases List.mem_cons.mp hq with hq | hq
      · subst hq; simp
      · simpa using hp.1 q hq

/-! Helper lemmas about the `errorFlag` fold of `hasInvalidCommands`. -/

theorem hasInvalid_foldl_of_all_valid {l : List CommandReq}
    (h : ∀ q ∈ l, invalidReq q = false) (acc : Option CommandReq) :
    l.foldl (fun acc q => if invalidReq q then some q else acc) acc = acc := by
  induction l generalizing acc with
  | nil => rfl
  | cons p ps ih =>
      have hp := h p (List.mem_cons_self p ps)
      simp only [List.foldl_cons, hp]
      exact ih (fun q hq => h q (List.mem_cons_of_mem p hq)) acc

theorem hasInvalid_foldl_of_some_invalid {l : List CommandReq}
    (h : ∃ q ∈ l, invalidReq q = true) (acc : Option CommandReq) :
    ∃ p ∈ l, invalidReq p = true ∧
      l.foldl (fun acc q => if invalidReq q then some q else acc) acc = some p := by
  induction l generalizing acc with
  | nil => simp at h
  | cons p ps ih =>
      by_cases hps : ∃ q ∈ ps, invalidReq q = true
      · rcases ih hps (if invalidReq p then some p else acc) with ⟨r, hr, hrinv, hfold⟩
        exact ⟨r, List.mem_cons_of_mem p hr, hrinv, hfold⟩
      · push_neg at hps
        have hval : ∀ q ∈ ps, invalidReq q = false := by
          intro q hq
          exact Bool.eq_false_iff.mpr (fun hc => (hps q hq) hc)
        rcases h with ⟨r, hr, hrinv⟩
        rcases List.mem_cons.mp hr with hr | hr
        · subst hr
          refine ⟨r, List.mem_cons_self r ps, hrinv, ?_⟩
          simp only [List.foldl_cons, hrinv, if_true]
          exact hasInvalid_foldl_of_all_valid hval (some r)
        · exact absurd (hval r hr) (by simp [hrinv])

theorem hasInvalidCommands_of_unique {l : List CommandReq} {q : CommandReq}
    (hcount : l.countP invalidReq = 1) (hq : q ∈ l) (hinv : invalidReq q = true) :
    hasInvalidCommands l = some q := by
  induction l with
  | nil => simp at hq
  | cons p ps ih =>
      by_cases hp : invalidReq p = true
      · rw [List.countP_cons_of_pos invalidReq ps hp] at hcount
        have hps : ps.countP invalidReq = 0 := by omega
        have hval : ∀ r ∈ ps, invalidReq r = false := by
          intro r hr
          have := List.countP_eq_zero.mp hps r hr
          simpa using this
        have hqp : q = p := by
          rcases List.mem_cons.mp hq with h | h
          · exact h
          · exact absurd (hval q h) (by simp [hinv])
        subst hqp
        unfold hasInvalidCommands
        simp only [List.foldl_cons, hp, if_true]
        exact hasInvalid_foldl_of_all_valid hval (some q)
      · have hp' : invalidReq p = false := Bool.eq_false_iff.mpr hp
        rw [List.countP_cons_of_neg invalidReq ps hp] at hcount
        have hps : ps.countP invalidReq = 1 := hcount
        have hqps : q ∈ ps := by
          rcases List.mem_cons.mp hq with h | h
          · subst h; exact absurd hinv (by simp [hp'])
          · exact h
        have := ih hps hqps
        unfold hasInvalidCommands at this ⊢
        simpa only [List.foldl_cons, hp', if_false] using this

/-! The claim theorems. -/

/-- C1: For every rover position and heading, a forward move targets the
cell one step along the heading's unit vector, with N decrementing y,
E incrementing x, S incrementing y and W decrementing x; and the backward
move's destination offset is the exact negation of the forward move's
offset.  (The two moves feed exactly these destinations to
`repositionRover`.) -/
theorem forward_unit_vectors_backward_negated (c : Coord) (h : Heading)
    (w : World) (i : Nat) :
    forwardDest c Heading.N = { c with y := c.y - 1 } ∧
    forwardDest c Heading.E = { c with x := c.x + 1 } ∧
    forwardDest c Heading.S = { c with y := c.y + 1 } ∧
    forwardDest c Heading.W = { c with x := c.x - 1 } ∧
    (backwardDest c h).x - c.x = -((forwardDest c h).x - c.x) ∧
    (backwardDest c h).y - c.y = -((forwardDest c h).y - c.y) ∧
    moveForward w i =
      repositionRover w i (forwardDest (getRover w i).currentCoords (getRover w i).direction) ∧
    moveBackwards w i =
      repositionRover w i (backwardDest (getRover w i).currentCoords (getRover w i).direction) := by
  refine ⟨rfl, rfl, rfl, rfl, ?_, ?_, rfl, rfl⟩
  · cases h <;> simp [forwardDest, backwardDest]
  · cases h <;> simp [forwardDest, backwardDest]

/-- C9: `turnRight` four times (or `turnLeft` four times) is the identity
on every heading, `turnLeft` and `turnRight` are mutual inverses, and the
lifted turn orders touch neither the map (grid and boundaries) nor any
rover's position: they only rewrite the turned rover's `direction`. -/
theorem turn_four_cycle_and_inverses (d : Heading) (w : World) (i : Nat) :
    turnRight (turnRight (turnRight (turnRight d))) = d ∧
    turnLeft (turnLeft (turnLeft (turnLeft d))) = d ∧
    turnLeft (turnRight d) = d ∧
    turnRight (turnLeft d) = d ∧
    execOrder w { roverIdx := i, command := 'l' } = (turnRover turnLeft w i, []) ∧
    execOrder w { roverIdx := i, command := 'r' } = (turnRover turnRight w i, []) ∧
    (turnRover turnLeft w i).map = w.map ∧
    (turnRover turnRight w i).map = w.map ∧
    (turnRover turnLeft w i).rovers =
      w.rovers.set i { getRover w i with direction := turnLeft (getRover w i).direction } ∧
    (turnRover turnRight w i).rovers =
      w.rovers.set i { getRover w i with direction := turnRight (getRover w i).direction } := by
  refine ⟨?_, ?_, ?_, ?_, ?_, ?_, rfl, rfl, rfl, rfl⟩
  · cases d <;> rfl
  · cases d <;> rfl
  · cases d <;> rfl
  · cases d <;> rfl
  · simp [execOrder]
  · simp [execOrder]

/-- C3: a move whose destination lies on or past the exclusive boundary
yields the OutOfBounds warning and mutates nothing; an in-bounds move onto
a non-empty square yields the Collision warning and mutates nothing; an
accepted move places the rover exactly at the destination (no clamping). -/
theorem rejected_moves_warn_without_mutation (w : World) (i : Nat) (dest : Coord) :
    (dest.y ≤ w.map.boundaries.top ∨ dest.y ≥ w.map.boundaries.down ∨
        dest.x ≤ w.map.boundaries.left ∨ dest.x ≥ w.map.boundaries.right →
      repositionRover w i dest =
        (w, [{ roverName := (getRover w i).name, message := "destination out of bounds" }])) ∧
    (¬(dest.y ≤ w.map.boundaries.top ∨ dest.y ≥ w.map.boundaries.down ∨
        dest.x ≤ w.map.boundaries.left ∨ dest.x ≥ w.map.boundaries.right) →
      w.map.squares dest.y dest.x ≠ Cell.empty →
      repositionRover w i dest =
        (w, [{ roverName := (getRover w i).name, message := "collision warning" }])) ∧
    (¬(dest.y ≤ w.map.boundaries.top ∨ dest.y ≥ w.map.boundaries.down ∨
        dest.x ≤ w.map.boundaries.left ∨ dest.x ≥ w.map.boundaries.right) →
      w.map.squares dest.y dest.x = Cell.empty → i < w.rovers.length →
      (getRover (repositionRover w i dest).1 i).currentCoords = dest ∧
        (repositionRover w i dest).2 = []) := by
  refine ⟨?_, ?_, ?_⟩
  · intro h
    simp [repositionRover, haveObstacle, h]
  · intro h1 h2
    simp [repositionRover, haveObstacle, h1, h2]
  · intro h1 h2 h3
    simp [repositionRover, haveObstacle, h1, h2, getRover,
      List.getD_eq_getElem?_getD, List.getElem?_set_self h3]

/-- Witness for C3 at concrete inputs: from (5,5) on the 10×10 grid,
x = 10 sits on the exclusive edge and is rejected untouched, the occupied
square (5,5) collides untouched, and the free square (5,4) is reached
exactly. -/
theorem rejected_moves_warn_without_mutation_witness :
    repositionRover alphaWorld 0 { x := 10, y := 5 } =
      (alphaWorld, [{ roverName := "Alpha", message := "destination out of bounds" }]) ∧
    repositionRover alphaWorld 0 { x := 5, y := 5 } =
      (alphaWorld, [{ roverName := "Alpha", message := "collision warning" }]) ∧
    (getRover (repositionRover alphaWorld 0 { x := 5, y := 4 }).1 0).currentCoords =
      { x := 5, y := 4 } :=
  ⟨(rejected_moves_warn_without_mutation alphaWorld 0 { x := 10, y := 5 }).1 (by decide),
   (rejected_moves_warn_without_mutation alphaWorld 0 { x := 5, y := 5 }).2.1
     (by decide) (by decide),
   ((rejected_moves_warn_without_mutation alphaWorld 0 { x := 5, y := 4 }).2.2
     (by decide) (by decide) (by decide)).1⟩

/-- C2: an accepted move appends exactly its committed destination to the
moved rover's history, a rejected move leaves the whole world (hence every
history) unchanged, turns never touch any history; and on the 10×10 grid
the rover at (5,5) heading N executing "ff" with nothing ahead ends at
(5,3) with history [(5,5), (5,4), (5,3)] and no warnings. -/
theorem history_appends_only_on_accepted_moves (w : World) (i : Nat) (dest : Coord)
    (f : Heading → Heading) (hlen : i < w.rovers.length) :
    ((repositionRover w i dest).2 = [] →
      (getRover (repositionRover w i dest).1 i).travelLog =
        (getRover w i).travelLog ++ [dest]) ∧
    ((repositionRover w i dest).2 ≠ [] → (repositionRover w i dest).1 = w) ∧
    (∀ j, (getRover (turnRover f w i) j).travelLog = (getRover w j).travelLog) ∧
    (commandRovers alphaWorld ffBatch).1.rovers =
      [{ name := "Alpha", direction := Heading.N, currentCoords := { x := 5, y := 3 },
         travelLog := [{ x := 5, y := 5 }, { x := 5, y := 4 }, { x := 5, y := 3 }] }] ∧
    (commandRovers alphaWorld ffBatch).2.2 = [] := by
  refine ⟨?_, ?_, ?_, by decide, by decide⟩
  · intro h
    cases hh : haveObstacle w.map dest with
    | none =>
        simp [repositionRover, hh, getRover,
          List.getD_eq_getElem?_getD, List.getElem?_set_self hlen]
    | some msg => simp [repositionRover, hh] at h
  · intro h
    cases hh : haveObstacle w.map dest with
    | none => simp [repositionRover, hh] at h
    | some msg => simp [repositionRover, hh]
  · intro j
    simp only [turnRover, getRover, List.getD_eq_getElem?_getD, List.getElem?_set]
    split
    · rename_i hij
      subst hij
      rfl
    · rfl

/-- Witness for C2 at a concrete accepted move: Alpha's forward step to
(5,4) appends exactly that destination to its history. -/
theorem history_appends_only_on_accepted_moves_witness :
    (getRover (repositionRover alphaWorld 0 { x := 5, y := 4 }).1 0).travelLog =
      [{ x := 5, y := 5 }, { x := 5, y := 4 }] :=
  ((history_appends_only_on_accepted_moves alphaWorld 0 { x := 5, y := 4 } turnLeft
      (by decide)).1 (by decide)).trans (by decide)

/-- C5: a batch containing any invalid command string is rejected whole:
the world and the caller's list are untouched and exactly one warning is
issued, naming an offending rover; when exactly one request is invalid the
warning names exactly that rover. -/
theorem invalid_batch_rejected_whole (w : World) (l : List CommandReq)
    (h : ∃ q, q ∈ l ∧ invalidReq q = true) :
    (∃ p, p ∈ l ∧ invalidReq p = true ∧
      commandRovers w l =
        (w, l, [{ roverName := (getRover w p.roverIdx).name, message := wrongCommandsMsg }])) ∧
    (∀ q, q ∈ l → invalidReq q = true → l.countP invalidReq = 1 →
      commandRovers w l =
        (w, l, [{ roverName := (getRover w q.roverIdx).name, message := wrongCommandsMsg }])) := by
  constructor
  · rcases hasInvalid_foldl_of_some_invalid
      (by rcases h with ⟨q, hq, hinv⟩; exact ⟨q, hq, hinv⟩) none with ⟨p, hp, hpinv, hfold⟩
    refine ⟨p, hp, hpinv, ?_⟩
    have : hasInvalidCommands l = some p := hfold
    simp [commandRovers, this]
  · intro q hq hinv hcount
    have := hasInvalidCommands_of_unique hcount hq hinv
    simp [commandRovers, this]

/-- Witness for C5: the single batch entry "lrx" for Alpha is rejected with
exactly one warning naming Alpha, and nothing changes. -/
theorem invalid_batch_rejected_whole_witness :
    commandRovers alphaWorld lrxBatch =
      (alphaWorld, lrxBatch, [{ roverName := "Alpha", message := wrongCommandsMsg }]) :=
  (invalid_batch_rejected_whole alphaWorld lrxBatch
      ⟨{ roverIdx := 0, commands := ['l', 'r', 'x'] }, by decide, by decide⟩).2
    { roverIdx := 0, commands := ['l', 'r', 'x'] } (by decide) (by decide) (by decide)

/-- C10: on the valid path `chainList` sorts the caller's command-list
array in place: after `commandRovers` returns, that array is the
stable descending-length permutation of the submission order (so the
per-rover travel logs are then emitted in that order, not submission
order); `swapBatch` shows the order really changes. -/
theorem commandList_sorted_in_place (w : World) (l : List CommandReq)
    (hv : hasInvalidCommands l = none) (_hne : l ≠ []) :
    (commandRovers w l).2.1 = sortByLenDesc l ∧
    List.Pairwise LenDesc (sortByLenDesc l) ∧
    List.Perm (sortByLenDesc l) l ∧
    sortByLenDesc swapBatch ≠ swapBatch := by
  refine ⟨?_, sortByLenDesc_pairwise l, sortByLenDesc_perm l, by decide⟩
  simp [commandRovers, hv]

/-- Witness for C10: the shorter-first batch comes back longest-first. -/
theorem commandList_sorted_in_place_witness :
    (commandRovers alphaWorld swapBatch).2.1 = sortByLenDesc swapBatch :=
  (commandList_sorted_in_place alphaWorld swapBatch (by decide) (by decide)).1

/-! Helper lemmas counting the orders `buildChain` emits. -/

theorem range_ite_sum (N len : Nat) :
    ((List.range N).map fun i => if i < len then 1 else 0).sum = min N len := by
  induction N with
  | zero => simp
  | succ n ih =>
      rw [List.range_succ, List.map_append, List.sum_append, ih]
      by_cases h : n < len <;> simp [h] <;> omega

theorem col_length (L : List CommandReq) (i : Nat) :
    (L.filterMap fun q => (q.commands[i]?).map
        fun ch => ({ roverIdx := q.roverIdx, command := ch } : Order)).length =
      (L.map fun q => if i < q.commands.length then 1 else 0).sum := by
  induction L with
  | nil => rfl
  | cons q L' ih =>
      by_cases h : i < q.commands.length
      · simp [List.filterMap_cons, List.getElem?_eq_getElem h, h, ih]
        omega
      · have hn : q.commands[i]? = none := List.getElem?_eq_none (Nat.le_of_not_lt h)
        simp [List.filterMap_cons, hn, h, ih]

theorem col_sum_swap (L : List CommandReq) (N : Nat) :
    ((List.range N).map fun i =>
        (L.map fun q => if i < q.commands.length then 1 else 0).sum).sum =
      (L.map fun q => min N q.commands.length).sum := by
  induction L with
  | nil => simp
  | cons q L' ih =>
      simp only [List.map_cons, List.sum_cons]
      rw [← ih, ← range_ite_sum N q.commands.length, ← List.sum_map_add]

theorem buildChain_length (L : List CommandReq) :
    (buildChain L).length =
      (L.map fun q => min ((L.headD default).commands.length) q.commands.length).sum := by
  unfold buildChain
  rw [List.length_flatMap]
  simp only [Function.comp_def]
  rw [List.map_congr_left fun i _ => col_length L i]
  exact col_sum_swap L _

theorem flatMap_toList_eq_filterMap {α β : Type} (f : α → Option β) (l : List α) :
    (l.flatMap fun a => (f a).toList) = l.filterMap f := by
  induction l with
  | nil => rfl
  | cons a l' ih => cases h : f a <;> simp [List.filterMap_cons, h, ih]

theorem range_filterMap_getElem (xs : List Char) (N : Nat) :
    (List.range N).filterMap (fun i => xs[i]?) = xs.take N := by
  induction N with
  | zero => rfl
  | succ n ih =>
      rw [List.range_succ, List.filterMap_append, ih, List.take_succ]
      cases h : xs[n]? <;> simp [List.filterMap_cons, h]

theorem filterMap_guard_unique {L : List CommandReq} {q : CommandReq}
    (h : CommandReq → Option Char) (hq : q ∈ L)
    (hcount : L.countP (fun p => p.roverIdx == q.roverIdx) = 1) :
    L.filterMap (fun p => if p.roverIdx == q.roverIdx then h p else none) =
      (h q).toList := by
  induction L with
  | nil => simp at hq
  | cons p L' ih =>
      by_cases hp : (p.roverIdx == q.roverIdx) = true
      · rw [List.countP_cons_of_pos _ L' hp] at hcount
        have h0 : L'.countP (fun p => p.roverIdx == q.roverIdx) = 0 := by omega
        have hnone : ∀ a ∈ L', a.roverIdx = q.roverIdx → h a = none := by
          intro a ha haq
          exact absurd (by simp [haq] : (a.roverIdx == q.roverIdx) = true)
            (List.countP_eq_zero.mp h0 a ha)
        have hqp : q = p := by
          rcases List.mem_cons.mp hq with h' | h'
          · exact h'
          · exact absurd (by simp : (q.roverIdx == q.roverIdx) = true)
              (List.countP_eq_zero.mp h0 q h')
        subst hqp
        cases hh : h q <;> simp [List.filterMap_cons, hp, hh] <;> exact hnone
      · have hp' : (p.roverIdx == q.roverIdx) = false := by simpa using hp
        rw [List.countP_cons_of_neg _ L' (by simp [hp'])] at hcount
        have hq' : q ∈ L' := by
          rcases List.mem_cons.mp hq with h' | h'
          · subst h'; simp at hp'
          · exact h'
        have hpe : p.roverIdx ≠ q.roverIdx := by simpa using hp'
        simpa [List.filterMap_cons, hpe] using ih hq' hcount

theorem bind_pick (q q' : CommandReq) (i : Nat) :
    (((q'.commands[i]?).map
        fun ch => ({ roverIdx := q'.roverIdx, command := ch } : Order)).bind
      fun o => if o.roverIdx == q.roverIdx then some o.command else none) =
      if q'.roverIdx == q.roverIdx then q'.commands[i]? else none := by
  by_cases hb : q'.roverIdx = q.roverIdx <;> cases h : q'.commands[i]? <;> simp [h, hb]

/-- C4: with only valid characters, the interleaving emits exactly the sum
of the command-string lengths, each rover's own commands appear in their
original relative order, and the 3/5-length example yields exactly the 8
expected orders (the longer rover's last two coming after the shorter one
is exhausted). -/
theorem interleave_length_and_order (l : List CommandReq)
    (_hvalid : ∀ q ∈ l, invalidReq q = false) (_hne : l ≠ []) :
    ((chainList l).length = (l.map fun q => q.commands.length).sum) ∧
    (∀ q ∈ l, l.countP (fun p => p.roverIdx == q.roverIdx) = 1 →
      roverCmds (chainList l) q.roverIdx = q.commands) ∧
    chainList interleaveBatch = interleaveExpected := by
  have hperm := sortByLenDesc_perm l
  refine ⟨?_, ?_, by decide⟩
  · unfold chainList
    rw [buildChain_length]
    rw [List.map_congr_left fun q hq =>
      Nat.min_eq_right (sortByLenDesc_head_max hq)]
    exact (hperm.map fun q => q.commands.length).sum_eq
  · intro q hq hcount
    have hqs : q ∈ sortByLenDesc l := hperm.mem_iff.mpr hq
    have hcs : (sortByLenDesc l).countP (fun p => p.roverIdx == q.roverIdx) = 1 :=
      (hperm.countP_eq _).trans hcount
    have hlen : q.commands.length ≤ ((sortByLenDesc l).headD default).commands.length :=
      sortByLenDesc_head_max hqs
    unfold chainList roverCmds buildChain
    rw [List.filterMap_flatMap]
    rw [List.flatMap_congr fun i _ => by
      rw [List.filterMap_filterMap,
        List.filterMap_congr fun q' _ => bind_pick q q' i,
        filterMap_guard_unique (fun p => p.commands[i]?) hqs hcs]]
    rw [flatMap_toList_eq_filterMap, range_filterMap_getElem]
    exact List.take_of_length_le hlen

/-! Helper lemmas about `setSquare` and the occupancy counts. -/

theorem setSquare_boundaries (m : MarsMap) (c : Coord) (v : Cell) :
    (setSquare m c v).boundaries = m.boundaries := rfl

theorem setSquare_self (m : MarsMap) (c : Coord) (v : Cell) :
    (setSquare m c v).squares c.y c.x = v := by
  simp [setSquare]

theorem setSquare_ne (m : MarsMap) (c : Coord) (v : Cell) {y x : Int}
    (h : ¬(y = c.y ∧ x = c.x)) : (setSquare m c v).squares y x = m.squares y x := by
  simp only [setSquare, if_neg h]

theorem sampleOK_setSquare (m : MarsMap) (c c' : Coord) (v : Cell) :
    sampleOK (setSquare m c v) c' ↔ sampleOK m c' := Iff.rfl

theorem mem_gridCells {m : MarsMap} {p : Int × Int} :
    p ∈ gridCells m ↔
      0 ≤ p.1 ∧ p.1 < m.boundaries.down ∧ 0 ≤ p.2 ∧ p.2 < m.boundaries.right := by
  simp only [gridCells, Finset.mem_product, Finset.mem_Icc]
  omega

theorem sample_mem_gridCells {m : MarsMap} {c : Coord} (h : sampleOK m c) :
    ((c.y, c.x) : Int × Int) ∈ gridCells m := by
  rcases h with ⟨h1, h2, h3, h4⟩
  exact mem_gridCells.mpr ⟨h3, h4, h1, h2⟩

theorem occupiedCount_setSquare (m : MarsMap) (c : Coord) (v : Cell)
    (hin : sampleOK m c) (hemp : m.squares c.y c.x = Cell.empty)
    (hv : v ≠ Cell.empty) :
    occupiedCount (setSquare m c v) = occupiedCount m + 1 := by
  have hmem := sample_mem_gridCells hin
  have hset :
      ((gridCells m).filter fun p => (setSquare m c v).squares p.1 p.2 ≠ Cell.empty) =
        insert ((c.y, c.x) : Int × Int)
          ((gridCells m).filter fun p => m.squares p.1 p.2 ≠ Cell.empty) := by
    ext p
    simp only [Finset.mem_filter, Finset.mem_insert]
    by_cases hp : p = ((c.y, c.x) : Int × Int)
    · subst hp
      simp [setSquare, hmem, hv]
    · have hne : ¬(p.1 = c.y ∧ p.2 = c.x) := by
        intro hcon
        exact hp (Prod.ext hcon.1 hcon.2)
      rw [setSquare_ne m c v hne]
      simp [hp]
  show ((gridCells m).filter fun p => (setSquare m c v).squares p.1 p.2 ≠ Cell.empty).card =
    occupiedCount m + 1
  rw [hset, Finset.card_insert_of_not_mem]
  · rfl
  · simp [Finset.mem_filter, hemp]

theorem emptyCount_setSquare (m : MarsMap) (c : Coord) (v : Cell)
    (hin : sampleOK m c) (hemp : m.squares c.y c.x = Cell.empty)
    (hv : v ≠ Cell.empty) :
    emptyCount (setSquare m c v) = emptyCount m - 1 := by
  have hmem := sample_mem_gridCells hin
  have hset :
      ((gridCells m).filter fun p => (setSquare m c v).squares p.1 p.2 = Cell.empty) =
        ((gridCells m).filter fun p => m.squares p.1 p.2 = Cell.empty).erase
          ((c.y, c.x) : Int × Int) := by
    ext p
    simp only [Finset.mem_filter, Finset.mem_erase]
    by_cases hp : p = ((c.y, c.x) : Int × Int)
    · subst hp
      simp [setSquare, hv]
    · have hne : ¬(p.1 = c.y ∧ p.2 = c.x) := by
        intro hcon
        exact hp (Prod.ext hcon.1 hcon.2)
      rw [setSquare_ne m c v hne]
      simp [hp]
  show ((gridCells m).filter fun p => (setSquare m c v).squares p.1 p.2 = Cell.empty).card =
    emptyCount m - 1
  rw [hset, Finset.card_erase_of_mem]
  · rfl
  · simp [Finset.mem_filter, hmem, hemp]

theorem emptyCount_setSquare_out (m : MarsMap) (c : Coord) (v : Cell)
    (hout : ¬ sampleOK m c) :
    emptyCount (setSquare m c v) = emptyCount m := by
  unfold emptyCount
  apply congrArg
  apply Finset.filter_congr
  intro p hp
  have hin := mem_gridCells.mp hp
  have hne : ¬(p.1 = c.y ∧ p.2 = c.x) := by
    intro hcon
    exact hout ⟨hcon.2 ▸ hin.2.2.1, hcon.2 ▸ hin.2.2.2, hcon.1 ▸ hin.1, hcon.1 ▸ hin.2.1⟩
  rw [setSquare_ne m c v hne]

/-! Unfolding equations of the placement loop. -/

theorem landscapeLoop_zero (m : MarsMap) (rs : List Rover) (numObst : Nat)
    (idxs : List Nat) (samples : List Coord) :
    landscapeLoop m rs numObst idxs 0 samples = some (m, rs) := by
  cases samples <;> rfl

theorem landscapeLoop_nil (m : MarsMap) (rs : List Rover) (numObst : Nat)
    (idxs : List Nat) (d : Nat) :
    landscapeLoop m rs numObst idxs (d + 1) [] = none := rfl

theorem landscapeLoop_cons (m : MarsMap) (rs : List Rover) (numObst : Nat)
    (idxs : List Nat) (d : Nat) (c : Coord) (rest : List Coord) :
    landscapeLoop m rs numObst idxs (d + 1) (c :: rest) =
      if m.squares c.y c.x = Cell.empty then
        if 0 < numObst then
          landscapeLoop (setSquare m c Cell.rock) rs (numObst - 1) idxs d rest
        else
          match idxs.getLast? with
          | none => none
          | some i =>
              landscapeLoop (setSquare m c (Cell.roverRef i))
                (rs.set i
                  { rs.getD i default with currentCoords := c, travelLog := [c] })
                numObst idxs.dropLast d rest
      else
        landscapeLoop m rs numObst idxs (d + 1) rest := rfl

/-! Fresh maps produced by `generateEmptyMap`. -/

theorem generateEmptyMap_pos {xSize ySize : Int} (hx : 0 < xSize) (hy : 0 < ySize) :
    generateEmptyMap xSize ySize =
      some { boundaries := { left := -1, right := xSize, top := -1, down := ySize },
             squares := fun _ _ => Cell.empty } := by
  simp [generateEmptyMap, hx, hy]

theorem occupiedCount_fresh (xSize ySize : Int) :
    occupiedCount { boundaries := { left := -1, right := xSize, top := -1, down := ySize },
                    squares := fun _ _ => Cell.empty } = 0 := by
  simp [occupiedCount]

theorem emptyCount_fresh (xSize ySize : Int) :
    emptyCount { boundaries := { left := -1, right := xSize, top := -1, down := ySize },
                 squares := fun _ _ => Cell.empty } = ySize.toNat * xSize.toNat := by
  unfold emptyCount
  rw [Finset.filter_true_of_mem (fun p _ => rfl)]
  simp only [gridCells, Finset.card_product, Int.card_Icc]
  have h1 : ySize - 1 + 1 - 0 = ySize := by ring
  have h2 : xSize - 1 + 1 - 0 = xSize := by ring
  rw [h1, h2]

theorem LoopInv_fresh (xSize ySize : Int) (rs : List Rover) :
    LoopInv { boundaries := { left := -1, right := xSize, top := -1, down := ySize },
              squares := fun _ _ => Cell.empty } rs (List.range rs.length) := by
  refine ⟨⟨rfl, rfl⟩, List.nodup_range _, fun i h => List.mem_range.mp h, ?_, ?_⟩
  · intro i r hr hni
    exact absurd (List.mem_range.mpr (List.getElem?_eq_some.mp hr).1) hni
  · intro y x i h
    exact absurd h (by simp)

theorem OutsideEmpty_fresh (xSize ySize : Int) :
    OutsideEmpty { boundaries := { left := -1, right := xSize, top := -1, down := ySize },
                   squares := fun _ _ => Cell.empty } :=
  fun _ _ _ => rfl

/-! Preservation of the placement invariant. -/

theorem LoopInv_place_rock (m : MarsMap) (rs : List Rover) (idxs : List Nat)
    (c : Coord) (hc : m.squares c.y c.x = Cell.empty)
    (hinv : LoopInv m rs idxs) :
    LoopInv (setSquare m c Cell.rock) rs idxs := by
  obtain ⟨hstd, hnd, hbnd, hplaced, hcells⟩ := hinv
  refine ⟨hstd, hnd, hbnd, ?_, ?_⟩
  · intro i r hr hni
    obtain ⟨h1, h2, h3⟩ := hplaced i r hr hni
    refine ⟨h1, ?_, h3⟩
    have hne : ¬(r.currentCoords.y = c.y ∧ r.currentCoords.x = c.x) := by
      intro hcon
      rw [hcon.1, hcon.2] at h2
      exact absurd (h2.symm.trans hc) (by simp)
    rw [setSquare_ne m c _ hne]
    exact h2
  · intro y x i hsq
    by_cases hyx : y = c.y ∧ x = c.x
    · rw [hyx.1, hyx.2, setSquare_self] at hsq
      exact absurd hsq (by simp)
    · rw [setSquare_ne m c _ hyx] at hsq
      exact hcells y x i hsq

theorem OutsideEmpty_setSquare (m : MarsMap) (c : Coord) (v : Cell)
    (hin : sampleOK m c) (hout : OutsideEmpty m) :
    OutsideEmpty (setSquare m c v) := by
  intro y x h
  have hne : ¬(y = c.y ∧ x = c.x) := by
    intro hcon
    exact h ⟨hcon.2 ▸ hin.1, hcon.2 ▸ hin.2.1, hcon.1 ▸ hin.2.2.1, hcon.1 ▸ hin.2.2.2⟩
  rw [setSquare_ne m c v hne]
  exact hout y x h

theorem LoopInv_place_rover (m : MarsMap) (rs : List Rover) (idxs : List Nat)
    (c : Coord) (i : Nat)
    (hc : m.squares c.y c.x = Cell.empty) (hcok : sampleOK m c)
    (hlast : idxs.getLast? = some i) (hinv : LoopInv m rs idxs) :
    LoopInv (setSquare m c (Cell.roverRef i))
      (rs.set i { rs.getD i default with currentCoords := c, travelLog := [c] })
      idxs.dropLast := by
  obtain ⟨hstd, hnd, hbnd, hplaced, hcells⟩ := hinv
  have hisplit : idxs.dropLast ++ [i] = idxs :=
    List.dropLast_append_getLast? i hlast
  have himem : i ∈ idxs := by
    rw [← hisplit]
    simp
  have hilen : i < rs.length := hbnd i himem
  have hnotdrop : i ∉ idxs.dropLast := by
    have hnd' : (idxs.dropLast ++ [i]).Nodup := by rw [hisplit]; exact hnd
    intro hmem
    rcases List.nodup_append.mp hnd' with ⟨_, _, hdisj⟩
    exact hdisj hmem (List.mem_singleton.mpr rfl)
  refine ⟨hstd, List.Nodup.sublist (List.dropLast_sublist idxs) hnd, ?_, ?_, ?_⟩
  · intro j hj
    rw [List.length_set]
    exact hbnd j (List.Sublist.mem hj (List.dropLast_sublist idxs))
  · intro j r hr hnj
    by_cases hij : j = i
    · subst hij
      rw [List.getElem?_set_self hilen] at hr
      obtain rfl := (Option.some.inj hr).symm
      exact ⟨hcok, setSquare_self m c _, rfl⟩
    · rw [List.getElem?_set_ne (fun h => hij h.symm)] at hr
      have hnjfull : j ∉ idxs := by
        rw [← hisplit]
        intro hmem
        rcases List.mem_append.mp hmem with h | h
        · exact hnj h
        · exact hij (List.mem_singleton.mp h)
      obtain ⟨h1, h2, h3⟩ := hplaced j r hr hnjfull
      refine ⟨h1, ?_, h3⟩
      have hne : ¬(r.currentCoords.y = c.y ∧ r.currentCoords.x = c.x) := by
        intro hcon
        rw [hcon.1, hcon.2] at h2
        exact absurd (h2.symm.trans hc) (by simp)
      rw [setSquare_ne _ _ _ hne]
      exact h2
  · intro y x k hsq
    by_cases hyx : y = c.y ∧ x = c.x
    · rw [hyx.1, hyx.2, setSquare_self] at hsq
      obtain rfl : i = k := by
        cases hsq
        rfl
      refine ⟨hnotdrop, _, List.getElem?_set_self hilen, ?_⟩
      rw [hyx.1, hyx.2]
    · rw [setSquare_ne _ _ _ hyx] at hsq
      obtain ⟨hknotin, r, hrk, hrc⟩ := hcells y x k hsq
      have hki : k ≠ i := fun h => hknotin (h ▸ himem)
      refine ⟨fun hmem => hknotin (List.Sublist.mem hmem (List.dropLast_sublist idxs)),
        r, ?_, hrc⟩
      rw [List.getElem?_set_ne (Ne.symm hki)]
      exact hrk

theorem LoopInv_ready (m : MarsMap) (rs : List Rover) (hinv : LoopInv m rs []) :
    RoverCellsInv { map := m, rovers := rs } := by
  obtain ⟨hstd, _, _, hplaced, hcells⟩ := hinv
  refine ⟨hstd, ?_, ?_⟩
  · intro i r hr
    obtain ⟨h1, h2, _⟩ := hplaced i r hr (List.not_mem_nil i)
    exact ⟨h1, h2⟩
  · intro y x i h
    exact (hcells y x i h).2

/-- Master property of the placement loop: from an invariant state, a
completed run preserves the invariant with nothing left to place, keeps
cells outside the grid empty, occupies exactly `d` further cells, and
leaves boundaries and the rover-store length unchanged. -/
theorem landscapeLoop_spec (samples : List Coord) :
    ∀ (m : MarsMap) (rs : List Rover) (numObst : Nat) (idxs : List Nat) (d : Nat)
      (m' : MarsMap) (rs' : List Rover),
      d = numObst + idxs.length →
      (∀ c ∈ samples, sampleOK m c) →
      LoopInv m rs idxs → OutsideEmpty m →
      landscapeLoop m rs numObst idxs d samples = some (m', rs') →
      LoopInv m' rs' [] ∧ OutsideEmpty m' ∧
        occupiedCount m' = occupiedCount m + d ∧
        m'.boundaries = m.boundaries ∧ rs'.length = rs.length := by
  induction samples with
  | nil =>
      intro m rs numObst idxs d m' rs' hd _hsam hinv hout hrun
      cases d with
      | zero =>
          rw [landscapeLoop_zero] at hrun
          obtain ⟨rfl, rfl⟩ := Prod.mk.injEq _ _ _ _ ▸ Option.some.inj hrun
          have hidx : idxs = [] := List.length_eq_zero.mp (by omega)
          subst hidx
          exact ⟨hinv, hout, by omega, rfl, rfl⟩
      | succ n => exact absurd hrun (by simp [landscapeLoop_nil])
  | cons c rest ih =>
      intro m rs numObst idxs d m' rs' hd hsam hinv hout hrun
      cases d with
      | zero =>
          rw [landscapeLoop_zero] at hrun
          obtain ⟨rfl, rfl⟩ := Prod.mk.injEq _ _ _ _ ▸ Option.some.inj hrun
          have hidx : idxs = [] := List.length_eq_zero.mp (by omega)
          subst hidx
          exact ⟨hinv, hout, by omega, rfl, rfl⟩
      | succ n =>
          rw [landscapeLoop_cons] at hrun
          have hcok : sampleOK m c := hsam c (List.mem_cons_self c rest)
          have hsam' : ∀ c' ∈ rest, sampleOK m c' :=
            fun c' hc' => hsam c' (List.mem_cons_of_mem c hc')
          by_cases hc : m.squares c.y c.x = Cell.empty
          · rw [if_pos hc] at hrun
            by_cases hob : 0 < numObst
            · rw [if_pos hob] at hrun
              obtain ⟨ha, hb, hcnt, hbd, hlen⟩ :=
                ih (setSquare m c Cell.rock) rs (numObst - 1) idxs n m' rs'
                  (by omega) hsam' (LoopInv_place_rock m rs idxs c hc hinv)
                  (OutsideEmpty_setSquare m c Cell.rock hcok hout) hrun
              refine ⟨ha, hb, ?_, hbd, hlen⟩
              rw [hcnt, occupiedCount_setSquare m c Cell.rock hcok hc (by simp)]
              omega
            · rw [if_neg hob] at hrun
              cases hlast : idxs.getLast? with
              | none =>
                  rw [hlast] at hrun
                  exact absurd hrun (by simp)
              | some i =>
                  rw [hlast] at hrun
                  have hne : idxs ≠ [] := by
                    intro h
                    rw [h] at hlast
                    simp at hlast
                  have hlenidx : 0 < idxs.length := List.length_pos.mpr hne
                  obtain ⟨ha, hb, hcnt, hbd, hlen⟩ :=
                    ih (setSquare m c (Cell.roverRef i))
                      (rs.set i
                        { rs.getD i default with currentCoords := c, travelLog := [c] })
                      numObst idxs.dropLast n m' rs'
                      (by rw [List.length_dropLast]; omega) hsam'
                      (LoopInv_place_rover m rs idxs c i hc hcok hlast hinv)
                      (OutsideEmpty_setSquare m c _ hcok hout) hrun
                  refine ⟨ha, hb, ?_, hbd, ?_⟩
                  · rw [hcnt, occupiedCount_setSquare m c _ hcok hc (by simp)]
                    omega
                  · rw [hlen, List.length_set]
          · rw [if_neg hc] at hrun
            exact ih m rs numObst idxs (n + 1) m' rs' hd hsam' hinv hout hrun

/-- A placement step removes the consumed sample while keeping the covering
property of the remaining stream. -/
theorem cover_tail (m : MarsMap) (c : Coord) (v : Cell) (rest : List Coord)
    (hv : v ≠ Cell.empty)
    (hcov : ∀ p ∈ gridCells m, m.squares p.1 p.2 = Cell.empty →
      ({ x := p.2, y := p.1 } : Coord) ∈ c :: rest) :
    ∀ p ∈ gridCells m, (setSquare m c v).squares p.1 p.2 = Cell.empty →
      ({ x := p.2, y := p.1 } : Coord) ∈ rest := by
  intro p hp hem
  by_cases hpc : p.1 = c.y ∧ p.2 = c.x
  · rw [hpc.1, hpc.2, setSquare_self] at hem
    exact absurd hem hv
  · rw [setSquare_ne m c v hpc] at hem
    rcases List.mem_cons.mp (hcov p hp hem) with h | h
    · exact absurd ⟨congrArg Coord.y h, congrArg Coord.x h⟩ hpc
    · exact h

/-- A retried (occupied) sample can likewise be dropped from the stream. -/
theorem cover_tail_skip (m : MarsMap) (c : Coord) (rest : List Coord)
    (hc : m.squares c.y c.x ≠ Cell.empty)
    (hcov : ∀ p ∈ gridCells m, m.squares p.1 p.2 = Cell.empty →
      ({ x := p.2, y := p.1 } : Coord) ∈ c :: rest) :
    ∀ p ∈ gridCells m, m.squares p.1 p.2 = Cell.empty →
      ({ x := p.2, y := p.1 } : Coord) ∈ rest := by
  intro p hp hem
  rcases List.mem_cons.mp (hcov p hp hem) with h | h
  · exfalso
    apply hc
    rw [← congrArg Coord.y h, ← congrArg Coord.x h]
    exact hem
  · exact h

/-- Termination of the placement loop: any sample stream that still covers
every empty grid cell finishes the remaining deploys (which never exceed
the number of empty cells). -/
theorem landscapeLoop_terminates (samples : List Coord) :
    ∀ (m : MarsMap) (rs : List Rover) (numObst : Nat) (idxs : List Nat) (d : Nat),
      d = numObst + idxs.length →
      d ≤ emptyCount m →
      (∀ p ∈ gridCells m, m.squares p.1 p.2 = Cell.empty →
        ({ x := p.2, y := p.1 } : Coord) ∈ samples) →
      ∃ m' rs', landscapeLoop m rs numObst idxs d samples = some (m', rs') := by
  induction samples with
  | nil =>
      intro m rs numObst idxs d hd hcnt hcov
      cases d with
      | zero => exact ⟨m, rs, landscapeLoop_zero m rs numObst idxs []⟩
      | succ n =>
          exfalso
          have hpos : 0 < emptyCount m := by omega
          obtain ⟨p, hp⟩ := Finset.card_pos.mp hpos
          have hpf := Finset.mem_filter.mp hp
          exact absurd (hcov p hpf.1 hpf.2) (List.not_mem_nil _)
  | cons c rest ih =>
      intro m rs numObst idxs d hd hcnt hcov
      cases d with
      | zero => exact ⟨m, rs, landscapeLoop_zero m rs numObst idxs (c :: rest)⟩
      | succ n =>
          rw [landscapeLoop_cons]
          by_cases hc : m.squares c.y c.x = Cell.empty
          · rw [if_pos hc]
            have hcnt' : ∀ v : Cell, v ≠ Cell.empty →
                n ≤ emptyCount (setSquare m c v) := by
              intro v hv
              by_cases hin : sampleOK m c
              · rw [emptyCount_setSquare m c v hin hc hv]
                omega
              · rw [emptyCount_setSquare_out m c v hin]
                omega
            by_cases hob : 0 < numObst
            · rw [if_pos hob]
              exact ih (setSquare m c Cell.rock) rs (numObst - 1) idxs n (by omega)
                (hcnt' Cell.rock (by simp)) (cover_tail m c Cell.rock rest (by simp) hcov)
            · rw [if_neg hob]
              have hne : idxs ≠ [] := by
                intro h
                rw [h] at hd
                simp at hd
                omega
              obtain ⟨i, hi⟩ : ∃ i, idxs.getLast? = some i := by
                cases h : idxs.getLast? with
                | none => exact absurd (List.getLast?_eq_none_iff.mp h) hne
                | some i => exact ⟨i, rfl⟩
              rw [hi]
              have hlenidx : 0 < idxs.length := List.length_pos.mpr hne
              exact ih (setSquare m c (Cell.roverRef i))
                (rs.set i { rs.getD i default with currentCoords := c, travelLog := [c] })
                numObst idxs.dropLast n (by rw [List.length_dropLast]; omega)
                (hcnt' (Cell.roverRef i) (by simp))
                (cover_tail m c (Cell.roverRef i) rest (by simp) hcov)
          · rw [if_neg hc]
            exact ih m rs numObst idxs (n + 1) hd hcnt (cover_tail_skip m c rest hc hcov)

/-- A completed `initializeMap` run decomposes into positive sizes and a
completed placement loop on the fresh map. -/
theorem initializeMap_ready_elim {xSize ySize : Int} {numObst : Nat} {rs : List Rover}
    {samples : List Coord} {world : World}
    (h : initializeMap xSize ySize numObst rs samples = InitResult.ready world) :
    0 < xSize ∧ 0 < ySize ∧
      landscapeLoop
        { boundaries := { left := -1, right := xSize, top := -1, down := ySize },
          squares := fun _ _ => Cell.empty } rs numObst (List.range rs.length)
        (numObst + (List.range rs.length).length) samples =
        some (world.map, world.rovers) := by
  unfold initializeMap at h
  cases hg : generateEmptyMap xSize ySize with
  | none => rw [hg] at h; exact absurd h (by simp)
  | some m =>
      rw [hg] at h
      unfold generateEmptyMap at hg
      by_cases hpos : 0 < xSize ∧ 0 < ySize
      · rw [if_pos hpos] at hg
        obtain rfl := Option.some.inj hg
        unfold landscapeSetup at h
        dsimp only at h
        by_cases hcap :
            ((numObst + (List.range rs.length).length : Nat) : Int) ≤ ySize * xSize
        · rw [if_pos hcap] at h
          cases hloop : landscapeLoop _ rs numObst (List.range rs.length) _ samples with
          | none => rw [hloop] at h; exact absurd h (by simp)
          | some pr =>
              obtain ⟨m', rs'⟩ := pr
              rw [hloop] at h
              have hw : InitResult.ready { map := m', rovers := rs' } =
                  InitResult.ready world := h
              obtain rfl := (InitResult.ready.inj hw).symm
              exact ⟨hpos.1, hpos.2, by dsimp only⟩
        · rw [if_neg hcap] at h; exact absurd h (by simp)
      · rw [if_neg hpos] at hg; exact absurd hg (by simp)

/-- Conversely, a completed loop on the fresh map yields a ready world. -/
theorem initializeMap_ready_intro {xSize ySize : Int} {numObst : Nat} {rs : List Rover}
    {samples : List Coord} {m' : MarsMap} {rs' : List Rover}
    (hx : 0 < xSize) (hy : 0 < ySize)
    (hcap : ((numObst + (List.range rs.length).length : Nat) : Int) ≤ ySize * xSize)
    (hloop : landscapeLoop
        { boundaries := { left := -1, right := xSize, top := -1, down := ySize },
          squares := fun _ _ => Cell.empty } rs numObst (List.range rs.length)
        (numObst + (List.range rs.length).length) samples = some (m', rs')) :
    initializeMap xSize ySize numObst rs samples =
      InitResult.ready { map := m', rovers := rs' } := by
  unfold initializeMap
  rw [generateEmptyMap_pos hx hy]
  show (match landscapeSetup _ numObst rs (List.range rs.length) samples with
    | SetupResult.insufficientSpace => InitResult.insufficientSpace
    | SetupResult.starved => InitResult.starved
    | SetupResult.placed m' rs' => InitResult.ready { map := m', rovers := rs' }) = _
  unfold landscapeSetup
  rw [if_pos hcap, hloop]

/-- Every in-bounds coordinate occurs in the full row-by-row sweep. -/
theorem mem_allCells {wN hN : Nat} {c : Coord}
    (hx1 : 0 ≤ c.x) (hx2 : c.x < (wN : Int)) (hy1 : 0 ≤ c.y) (hy2 : c.y < (hN : Int)) :
    c ∈ allCells wN hN := by
  have hyn : c.y.toNat < hN := by omega
  have hxn : c.x.toNat < wN := by omega
  have h1 : Int.ofNat c.x.toNat = c.x := by
    show ((c.x.toNat : Nat) : Int) = c.x
    omega
  have h2 : Int.ofNat c.y.toNat = c.y := by
    show ((c.y.toNat : Nat) : Int) = c.y
    omega
  have hceq : ({ x := Int.ofNat c.x.toNat, y := Int.ofNat c.y.toNat } : Coord) = c := by
    rw [h1, h2]
  rw [allCells, List.mem_flatMap]
  refine ⟨c.y.toNat, List.mem_range.mpr hyn, ?_⟩
  exact hceq ▸ List.mem_map_of_mem _ (List.mem_range.mpr hxn)

/-- The placement completes whenever the sample stream covers the grid and
the capacity precondition holds. -/
theorem initializeMap_ready_of_cover (wN hN numObst : Nat) (rs : List Rover)
    (samples : List Coord) (hw : 0 < wN) (hh : 0 < hN)
    (hcap : numObst + rs.length ≤ wN * hN)
    (hcov : ∀ c : Coord, 0 ≤ c.x → c.x < (wN : Int) → 0 ≤ c.y → c.y < (hN : Int) →
      c ∈ samples) :
    ∃ world, initializeMap (wN : Int) (hN : Int) numObst rs samples =
      InitResult.ready world := by
  have hcap' : numObst + rs.length ≤ hN * wN := by rw [Nat.mul_comm]; exact hcap
  obtain ⟨m', rs', hloop⟩ :=
    landscapeLoop_terminates samples
      { boundaries := { left := -1, right := (wN : Int), top := -1, down := (hN : Int) },
        squares := fun _ _ => Cell.empty } rs numObst (List.range rs.length)
      (numObst + (List.range rs.length).length) rfl
      (by rw [emptyCount_fresh]
          simp only [List.length_range, Int.toNat_natCast]
          omega)
      (by intro p hp hem
          have hb := mem_gridCells.mp hp
          exact hcov _ hb.2.2.1 hb.2.2.2 hb.1 hb.2.1)
  exact ⟨{ map := m', rovers := rs' },
    initializeMap_ready_intro (by exact_mod_cast hw) (by exact_mod_cast hh)
      (by simp only [List.length_range]; push_cast; exact_mod_cast hcap') hloop⟩

/-- Turning a rover rewrites only its heading, so the occupancy links are
untouched. -/
theorem turnRover_preserves_inv (w : World) (i : Nat) (f : Heading → Heading)
    (hinv : RoverCellsInv w) : RoverCellsInv (turnRover f w i) := by
  obtain ⟨hstd, hdir1, hdir2⟩ := hinv
  refine ⟨hstd, ?_, ?_⟩
  · intro j r hr
    simp only [turnRover] at hr
    by_cases hij : i = j
    · subst hij
      by_cases hlen : i < w.rovers.length
      · rw [List.getElem?_set_self hlen] at hr
        obtain rfl := (Option.some.inj hr).symm
        have hrold : w.rovers[i]? = some (getRover w i) := by
          rw [getRover, List.getD_eq_getElem?_getD, List.getElem?_eq_getElem hlen]
          rfl
        exact hdir1 i (getRover w i) hrold
      · rw [List.getElem?_set, if_pos rfl, if_neg hlen] at hr
        exact absurd hr (by simp)
    · rw [List.getElem?_set_ne hij] at hr
      exact hdir1 j r hr
  · intro y x j hsq
    obtain ⟨r, hr, hrc⟩ := hdir2 y x j hsq
    by_cases hij : i = j
    · subst hij
      have hlen : i < w.rovers.length := (List.getElem?_eq_some.mp hr).1
      have hrold : getRover w i = r := by
        rw [getRover, List.getD_eq_getElem?_getD, hr]
        rfl
      refine ⟨{ getRover w i with direction := f (getRover w i).direction }, ?_, ?_⟩
      · simp only [turnRover]
        exact List.getElem?_set_self hlen
      · show (getRover w i).currentCoords = _
        rw [hrold]
        exact hrc
    · refine ⟨r, ?_, hrc⟩
      simp only [turnRover]
      rw [List.getElem?_set_ne hij]
      exact hr

/-- An attempted move, accepted or rejected, keeps the occupancy links:
rejections change nothing, and an accepted move relocates exactly the
moving rover together with its rover reference. -/
theorem repositionRover_preserves_inv (w : World) (i : Nat) (dest : Coord)
    (hidx : i < w.rovers.length) (hinv : RoverCellsInv w) :
    RoverCellsInv (repositionRover w i dest).1 := by
  obtain ⟨hstd, hdir1, hdir2⟩ := hinv
  cases hobs : haveObstacle w.map dest with
  | some msg =>
      simp only [repositionRover, hobs]
      exact ⟨hstd, hdir1, hdir2⟩
  | none =>
      have hobs2 := hobs
      unfold haveObstacle at hobs2
      by_cases h1 : dest.y ≤ w.map.boundaries.top ∨ dest.y ≥ w.map.boundaries.down ∨
          dest.x ≤ w.map.boundaries.left ∨ dest.x ≥ w.map.boundaries.right
      · rw [if_pos h1] at hobs2
        exact absurd hobs2 (by simp)
      · rw [if_neg h1] at hobs2
        by_cases h2 : w.map.squares dest.y dest.x ≠ Cell.empty
        · rw [if_pos h2] at hobs2
          exact absurd hobs2 (by simp)
        · have hemp : w.map.squares dest.y dest.x = Cell.empty := not_not.mp h2
          push_neg at h1
          have hdok : sampleOK w.map dest := by
            obtain ⟨hl, ht⟩ := hstd
            refine ⟨?_, ?_, ?_, ?_⟩ <;> omega
          have hrold : w.rovers[i]? = some (getRover w i) := by
            rw [getRover, List.getD_eq_getElem?_getD, List.getElem?_eq_getElem hidx]
            rfl
          obtain ⟨holdok, holdcell⟩ := hdir1 i (getRover w i) hrold
          have hdo : ¬(dest.y = (getRover w i).currentCoords.y ∧
              dest.x = (getRover w i).currentCoords.x) := by
            intro hcon
            rw [← hcon.1, ← hcon.2] at holdcell
            exact absurd (hemp.symm.trans holdcell) (by simp)
          simp only [repositionRover, hobs]
          refine ⟨hstd, ?_, ?_⟩
          · intro j r hr
            by_cases hij : i = j
            · subst hij
              rw [List.getElem?_set_self hidx] at hr
              obtain rfl := (Option.some.inj hr).symm
              exact ⟨hdok, setSquare_self _ dest _⟩
            · rw [List.getElem?_set_ne hij] at hr
              obtain ⟨h1j, h2j⟩ := hdir1 j r hr
              refine ⟨h1j, ?_⟩
              have hne1 : ¬(r.currentCoords.y = dest.y ∧ r.currentCoords.x = dest.x) := by
                intro hcon
                rw [hcon.1, hcon.2] at h2j
                exact absurd (h2j.symm.trans hemp) (by simp)
              have hne2 : ¬(r.currentCoords.y = (getRover w i).currentCoords.y ∧
                  r.currentCoords.x = (getRover w i).currentCoords.x) := by
                intro hcon
                rw [hcon.1, hcon.2] at h2j
                have hrr := h2j.symm.trans holdcell
                exact hij (Cell.roverRef.inj hrr).symm
              rw [setSquare_ne _ dest _ hne1, setSquare_ne _ _ _ hne2]
              exact h2j
          · intro y x k hsq
            by_cases hdc : y = dest.y ∧ x = dest.x
            · rw [hdc.1, hdc.2, setSquare_self] at hsq
              obtain rfl : i = k := Cell.roverRef.inj hsq
              refine ⟨_, List.getElem?_set_self hidx, ?_⟩
              show dest = _
              rw [hdc.1, hdc.2]
            · rw [setSquare_ne _ dest _ hdc] at hsq
              by_cases hoc : y = (getRover w i).currentCoords.y ∧
                  x = (getRover w i).currentCoords.x
              · rw [hoc.1, hoc.2, setSquare_self] at hsq
                exact absurd hsq (by simp)
              · rw [setSquare_ne _ _ _ hoc] at hsq
                obtain ⟨r, hrk, hrc⟩ := hdir2 y x k hsq
                have hki : i ≠ k := by
                  intro h
                  subst h
                  obtain rfl := Option.some.inj (hrold.symm.trans hrk)
                  exact hoc ⟨(congrArg Coord.y hrc).symm ▸ rfl,
                    (congrArg Coord.x hrc).symm ▸ rfl⟩
                refine ⟨r, ?_, hrc⟩
                rw [List.getElem?_set_ne hki]
                exact hrk

/-- The concrete 10×10 world with Alpha at (5,5) satisfies the occupancy
invariant. -/
theorem alphaWorld_inv : RoverCellsInv alphaWorld := by
  refine ⟨⟨rfl, rfl⟩, ?_, ?_⟩
  · intro i r hr
    cases i with
    | zero =>
        obtain rfl := (Option.some.inj hr).symm
        exact ⟨by decide, by decide⟩
    | succ n => simp [alphaWorld] at hr
  · intro y x i h
    by_cases hc : y = 5 ∧ x = 5
    · obtain ⟨rfl, rfl⟩ := hc
      have h5 : alphaWorld.map.squares 5 5 = Cell.roverRef 0 := by decide
      obtain rfl : 0 = i := Cell.roverRef.inj (h5.symm.trans h)
      exact ⟨alphaRover, rfl, by decide⟩
    · have hempv : alphaWorld.map.squares y x = Cell.empty := by
        show (setSquare m10 { x := 5, y := 5 } (Cell.roverRef 0)).squares y x = Cell.empty
        rw [setSquare_ne]
        · rfl
        · exact hc
      exact absurd (hempv.symm.trans h) (by simp)

/-- C7: the occupancy invariant (each rover stands on the one square that
references it, so cells hold at most one occupant and a rover's cell equals
its recorded coordinates, distinct rovers sitting on distinct cells) is
established by setup and preserved by every order: turns, accepted moves
and rejected moves alike. -/
theorem occupancy_invariant_setup_and_preserved (w : World) (o : Order)
    (hidx : o.roverIdx < w.rovers.length) (hinv : RoverCellsInv w) :
    RoverCellsInv (execOrder w o).1 ∧
    (∀ (i j : Nat) (ri rj : Rover), w.rovers[i]? = some ri → w.rovers[j]? = some rj →
      ri.currentCoords = rj.currentCoords → i = j) ∧
    (∀ (xSize ySize : Int) (numObst : Nat) (rs : List Rover) (samples : List Coord)
        (world : World),
      (∀ c ∈ samples, 0 ≤ c.x ∧ c.x < xSize ∧ 0 ≤ c.y ∧ c.y < ySize) →
      initializeMap xSize ySize numObst rs samples = InitResult.ready world →
      RoverCellsInv world) := by
  refine ⟨?_, ?_, ?_⟩
  · unfold execOrder
    split_ifs
    · exact turnRover_preserves_inv w o.roverIdx turnLeft hinv
    · exact turnRover_preserves_inv w o.roverIdx turnRight hinv
    · exact repositionRover_preserves_inv w o.roverIdx _ hidx hinv
    · exact repositionRover_preserves_inv w o.roverIdx _ hidx hinv
    · exact hinv
  · intro i j ri rj hi hj hc
    have h1 := (hinv.2.1 i ri hi).2
    have h2 := (hinv.2.1 j rj hj).2
    rw [hc] at h1
    exact Cell.roverRef.inj (h1.symm.trans h2)
  · intro xSize ySize numObst rs samples world hsam hready
    obtain ⟨hx, hy, hloop⟩ := initializeMap_ready_elim hready
    obtain ⟨hinvL, _, _, _, _⟩ :=
      landscapeLoop_spec samples _ rs numObst (List.range rs.length) _
        world.map world.rovers rfl
        (fun c hc => ⟨(hsam c hc).1, (hsam c hc).2.1, (hsam c hc).2.2.1, (hsam c hc).2.2.2⟩)
        (LoopInv_fresh _ _ rs) (OutsideEmpty_fresh _ _) hloop
    exact LoopInv_ready world.map world.rovers hinvL

/-- Witness for C7: the invariant survives a concrete accepted forward move
of the 10×10 world. -/
theorem occupancy_invariant_setup_and_preserved_witness :
    RoverCellsInv (execOrder alphaWorld { roverIdx := 0, command := 'f' }).1 :=
  (occupancy_invariant_setup_and_preserved alphaWorld { roverIdx := 0, command := 'f' }
    (by decide) alphaWorld_inv).1

/-- C6: on a positive w×h grid, a request for more obstacles plus rovers
than cells fails with InsufficientSpace before touching anything; otherwise
scatter completes (for any stream covering the grid, e.g. the full sweep)
and a completed run occupies exactly obstacleCount + |rovers| grid cells,
leaves everything outside the grid empty, and initializes every placed
rover's position in bounds with the one-entry history of its sampled cell. -/
theorem scatter_capacity_and_placement (wN hN numObst : Nat) (rs : List Rover)
    (samples : List Coord) (hw : 0 < wN) (hh : 0 < hN) :
    (wN * hN < numObst + rs.length →
      initializeMap (wN : Int) (hN : Int) numObst rs samples =
        InitResult.insufficientSpace) ∧
    (∀ world, (∀ c ∈ samples, 0 ≤ c.x ∧ c.x < (wN : Int) ∧ 0 ≤ c.y ∧ c.y < (hN : Int)) →
      initializeMap (wN : Int) (hN : Int) numObst rs samples = InitResult.ready world →
      occupiedCount world.map = numObst + rs.length ∧
      OutsideEmpty world.map ∧
      world.rovers.length = rs.length ∧
      (∀ (i : Nat) (r : Rover), world.rovers[i]? = some r →
        sampleOK world.map r.currentCoords ∧ r.travelLog = [r.currentCoords])) ∧
    (numObst + rs.length ≤ wN * hN →
      ∃ world, initializeMap (wN : Int) (hN : Int) numObst rs (allCells wN hN) =
        InitResult.ready world) := by
  refine ⟨?_, ?_, ?_⟩
  · intro hover
    unfold initializeMap
    rw [generateEmptyMap_pos (by exact_mod_cast hw) (by exact_mod_cast hh)]
    show (match landscapeSetup _ numObst rs (List.range rs.length) samples with
      | SetupResult.insufficientSpace => InitResult.insufficientSpace
      | SetupResult.starved => InitResult.starved
      | SetupResult.placed m' rs' => InitResult.ready { map := m', rovers := rs' }) = _
    unfold landscapeSetup
    rw [if_neg]
    simp only [List.length_range]
    push_cast
    have : numObst + rs.length > hN * wN := by rw [Nat.mul_comm]; omega
    intro hcon
    exact absurd (by exact_mod_cast hcon : numObst + rs.length ≤ hN * wN) (by omega)
  · intro world hsam hready
    obtain ⟨hx, hy, hloop⟩ := initializeMap_ready_elim hready
    obtain ⟨hinv, houtside, hcount, hbounds, hlen⟩ :=
      landscapeLoop_spec samples _ rs numObst (List.range rs.length) _
        world.map world.rovers rfl
        (fun c hc => ⟨(hsam c hc).1, (hsam c hc).2.1, (hsam c hc).2.2.1, (hsam c hc).2.2.2⟩)
        (LoopInv_fresh _ _ rs) (OutsideEmpty_fresh _ _) hloop
    refine ⟨?_, houtside, hlen, ?_⟩
    · rw [hcount, occupiedCount_fresh, List.length_range]
      omega
    · intro i r hr
      obtain ⟨h1, _, h3⟩ := hinv.2.2.2.1 i r hr (List.not_mem_nil i)
      exact ⟨h1, h3⟩
  · intro hcap
    exact initializeMap_ready_of_cover wN hN numObst rs (allCells wN hN) hw hh hcap
      (fun c hx1 hx2 hy1 hy2 => mem_allCells hx1 hx2 hy1 hy2)

/-- Witness for C6: three items never fit a 1×2 grid, and one obstacle and
no rovers scatter onto the 1×1 grid swept cell by cell. -/
theorem scatter_capacity_and_placement_witness :
    initializeMap ((1 : Nat) : Int) ((2 : Nat) : Int) 3 [] [] =
      InitResult.insufficientSpace ∧
    ∃ world, initializeMap ((1 : Nat) : Int) ((1 : Nat) : Int) 1 [] (allCells 1 1) =
      InitResult.ready world :=
  ⟨(scatter_capacity_and_placement 1 2 3 [] [] (by decide) (by decide)).1 (by decide),
   (scatter_capacity_and_placement 1 1 1 [] (allCells 1 1) (by decide) (by decide)).2.2
     (by decide)⟩

/-- Once the origin holds a rock, a stream that keeps sampling the origin
never places the remaining obstacle. -/
theorem starve_aux (n : Nat) :
    landscapeLoop (setSquare map2x2 { x := 0, y := 0 } Cell.rock) [] 1 [] 1
      (List.replicate n { x := 0, y := 0 }) = none := by
  induction n with
  | zero => rfl
  | succ k ih =>
      rw [List.replicate_succ, landscapeLoop_cons, if_neg (by decide)]
      exact ih

/-- The two-obstacle placement on the empty 2×2 grid never finishes on the
constant origin stream, whatever its length. -/
theorem starve_main (n : Nat) :
    landscapeLoop map2x2 [] 2 [] 2 (constSamples n) = none := by
  cases n with
  | zero => rfl
  | succ k =>
      show landscapeLoop map2x2 [] 2 [] 2
        (List.replicate (k + 1) { x := 0, y := 0 }) = none
      rw [List.replicate_succ, landscapeLoop_cons, if_pos (by decide),
        if_pos (by decide)]
      exact starve_aux k

/-- Counterexample for C8: the 2×2 grid with two obstacles satisfies the
capacity precondition, yet on the adversarial constant random stream the
placement loop never terminates — every finite prefix starves, so the loop
is not total over all sample streams. -/
theorem placement_loop_can_starve :
    generateEmptyMap 2 2 = some map2x2 ∧
    ((2 + ([] : List Nat).length : Nat) : Int) ≤
      map2x2.boundaries.down * map2x2.boundaries.right ∧
    starvingDiverges := by
  refine ⟨generateEmptyMap_pos (by decide) (by decide), by decide, ?_⟩
  intro n
  show landscapeSetup map2x2 2 [] [] (constSamples n) = SetupResult.starved
  unfold landscapeSetup
  rw [if_pos (by decide)]
  have h2 : (2 : Nat) + ([] : List Nat).length = 2 := rfl
  rw [h2, starve_main n]

/-- C8 (amended): under the capacity precondition the placement loop,
viewed as a function of the sample stream, terminates on every stream that
covers the whole grid (in particular the finite row-by-row sweep), with no
retry cap; termination over arbitrary streams fails, see the starvation
counterexample. -/
theorem placement_terminates_on_covering_streams (wN hN numObst : Nat)
    (rs : List Rover) (samples : List Coord) (hw : 0 < wN) (hh : 0 < hN)
    (hcap : numObst + rs.length ≤ wN * hN)
    (hcov : ∀ c : Coord, 0 ≤ c.x → c.x < (wN : Int) → 0 ≤ c.y → c.y < (hN : Int) →
      c ∈ samples) :
    ∃ world, initializeMap (wN : Int) (hN : Int) numObst rs samples =
      InitResult.ready world :=
  initializeMap_ready_of_cover wN hN numObst rs samples hw hh hcap hcov

/-- Witness for C8's amended theorem: the single obstacle on the swept 1×1
grid is placed. -/
theorem placement_terminates_on_covering_streams_witness :
    ∃ world, initializeMap ((1 : Nat) : Int) ((1 : Nat) : Int) 1 [] (allCells 1 1) =
      InitResult.ready world :=
  placement_terminates_on_covering_streams 1 1 1 [] (allCells 1 1)
    (by decide) (by decide) (by decide)
    (fun c hx1 hx2 hy1 hy2 => mem_allCells hx1 hx2 hy1 hy2)

/-- Witness for C4 at the concrete two-rover batch: 3 + 5 = 8 orders and
rover 1's commands come back in submission order. -/
theorem interleave_length_and_order_witness :
    (chainList interleaveBatch).length = 8 ∧
    roverCmds (chainList interleaveBatch) 1 = ['f', 'b', 'f', 'l', 'r'] :=
  ⟨((interleave_length_and_order interleaveBatch (by decide) (by decide)).1).trans
      (by decide),
   (interleave_length_and_order interleaveBatch (by decide) (by decide)).2.1
      { roverIdx := 1, commands := ['f', 'b', 'f', 'l', 'r'] } (by decide) (by decide)⟩

end MarsRover
